import Mathlib

/-
Verification development for the `source` from-source package manager
(modules under `source/modules/`).  Each Python module relevant to the
verified properties is shallowly embedded below:

* Python `dict`s keyed by strings become insertion-ordered association
  lists (`List (String × β)`) with the update semantics of CPython
  dicts (updating an existing key keeps its position, a new key is
  appended at the end).
* Python `set`s of strings become duplicate-free lists.
* Raised exceptions become `Option`/`Except` results.
* External collaborators (the `tarfile`/`gzip` archive format,
  `hashlib` digests, the wall clock, subprocess spawning) are modelled
  by explicit executable stand-ins, documented at their definitions.
-/

namespace Source

/-! ### Association lists: the model of Python `dict` -/

/-- Lookup in an association list; the model of `d[k]` / `d.get(k)`. -/
def alook {β : Type _} : List (String × β) → String → Option β
  | [], _ => none
  | e :: t, k => if e.1 = k then some e.2 else alook t k

/-- Update/insert in an association list; the model of `d[k] = v`.
CPython dicts keep the position of an existing key and append new keys. -/
def aset {β : Type _} : List (String × β) → String → β → List (String × β)
  | [], k, v => [(k, v)]
  | e :: t, k, v => if e.1 = k then (k, v) :: t else e :: aset t k v

/-- The key list of an association list; the model of `d.keys()`. -/
def fsts {β : Type _} (l : List (String × β)) : List String := l.map Prod.fst

/-- Adding an element to a Python `set` modelled as a duplicate-free list. -/
def addNode (ns : List String) (x : String) : List String :=
  if x ∈ ns then ns else ns ++ [x]

theorem mem_fsts {β : Type _} {l : List (String × β)} {k : String} :
    k ∈ fsts l ↔ ∃ v, (k, v) ∈ l := by
  constructor
  · intro h
    rcases List.mem_map.mp h with ⟨p, hp, he⟩
    obtain ⟨a, b⟩ := p
    cases he
    exact ⟨b, hp⟩
  · rintro ⟨v, hv⟩
    exact List.mem_map.mpr ⟨(k, v), hv, rfl⟩

theorem fsts_cons {β : Type _} (e : String × β) (t : List (String × β)) :
    fsts (e :: t) = e.1 :: fsts t := rfl

theorem alook_eq_none {β : Type _} {l : List (String × β)} {k : String} :
    alook l k = none ↔ k ∉ fsts l := by
  induction l with
  | nil => simp [alook, fsts]
  | cons e t ih =>
      by_cases h : e.1 = k
      · subst h
        simp [alook, fsts_cons]
      · have h' : k ≠ e.1 := fun hk => h hk.symm
        simp [alook, fsts_cons, h, h', ih]

theorem mem_of_alook {β : Type _} {l : List (String × β)} {k : String} {v : β}
    (h : alook l k = some v) : (k, v) ∈ l := by
  induction l with
  | nil => simp [alook] at h
  | cons e t ih =>
      by_cases he : e.1 = k
      · simp [alook, he] at h
        obtain ⟨a, b⟩ := e
        cases he
        cases h
        exact List.mem_cons_self _ _
      · simp [alook, he] at h
        exact List.mem_cons_of_mem _ (ih h)

theorem alook_of_mem {β : Type _} {l : List (String × β)} {k : String} {v : β}
    (hnd : (fsts l).Nodup) (h : (k, v) ∈ l) : alook l k = some v := by
  induction l with
  | nil => simp at h
  | cons e t ih =>
      rw [fsts_cons] at hnd
      have hnd1 : e.1 ∉ fsts t := (List.nodup_cons.mp hnd).1
      have hnd2 : (fsts t).Nodup := (List.nodup_cons.mp hnd).2
      rcases List.mem_cons.mp h with h | h
      · subst h
        simp [alook]
      · have hne : e.1 ≠ k := fun hk => hnd1 (by rw [hk]; exact mem_fsts.mpr ⟨v, h⟩)
        simp [alook, hne]
        exact ih hnd2 h

theorem alook_aset_self {β : Type _} (l : List (String × β)) (k : String) (v : β) :
    alook (aset l k v) k = some v := by
  induction l with
  | nil => simp [aset, alook]
  | cons e t ih =>
      by_cases h : e.1 = k <;> simp [aset, alook, h, ih]

theorem alook_aset_ne {β : Type _} (l : List (String × β)) (k k' : String) (v : β)
    (h : k ≠ k') : alook (aset l k v) k' = alook l k' := by
  induction l with
  | nil => simp [aset, alook, h]
  | cons e t ih =>
      by_cases he : e.1 = k
      · rw [show aset (e :: t) k v = (k, v) :: t by simp [aset, he]]
        have he' : e.1 ≠ k' := he ▸ h
        simp [alook, h, he']
      · rw [show aset (e :: t) k v = e :: aset t k v by simp [aset, he]]
        by_cases he' : e.1 = k' <;> simp [alook, he', ih]

theorem fsts_aset_of_mem {β : Type _} {l : List (String × β)} {k : String} (v : β)
    (h : k ∈ fsts l) : fsts (aset l k v) = fsts l := by
  induction l with
  | nil => simp [fsts] at h
  | cons e t ih =>
      by_cases he : e.1 = k
      · rw [show aset (e :: t) k v = (k, v) :: t by simp [aset, he]]
        simp [fsts_cons, he]
      · have hkt : k ∈ fsts t := by
          rcases mem_fsts.mp h with ⟨b, hb⟩
          rcases List.mem_cons.mp hb with hb | hb
          · exact absurd (congrArg Prod.fst hb).symm he
          · exact mem_fsts.mpr ⟨b, hb⟩
        rw [show aset (e :: t) k v = e :: aset t k v by simp [aset, he]]
        rw [fsts_cons, fsts_cons, ih hkt]

theorem mem_addNode {ns : List String} {x y : String} :
    y ∈ addNode ns x ↔ y ∈ ns ∨ y = x := by
  by_cases h : x ∈ ns
  · simp [addNode, h]
    intro hy
    subst hy
    exact h
  · simp [addNode, h]

theorem nodup_addNode {ns : List String} (h : ns.Nodup) (x : String) :
    (addNode ns x).Nodup := by
  by_cases hx : x ∈ ns
  · simpa [addNode, hx] using h
  · simp [addNode, hx]
    exact List.Nodup.append h (List.nodup_singleton x) (by simpa using fun hy => hx hy)

/-! ### `graph.py`: the dependency graph -/

/-- `DependencyGraph` (graph.py lines 4-10): `self.graph` is a dict
`package -> {dep: weight}` and `self.nodes` a set of names. -/
structure DependencyGraph where
  graph : List (String × List (String × Int))
  nodes : List String
deriving DecidableEq

/-- A freshly constructed `DependencyGraph()` (graph.py line 7-9). -/
def DependencyGraph.init : DependencyGraph := ⟨[], []⟩

/-- `add_package` (graph.py lines 16-33), dictionary form of
`dependencies`.  The `self.graph[package][dep] = w` assignments are
performed only when `dependencies` is non-empty (the `if dependencies:`
truthiness test), so a package without dependencies is added to
`self.nodes` but gets no entry in `self.graph`. -/
def add_package (g : DependencyGraph) (package : String)
    (dependencies : List (String × Int)) : DependencyGraph :=
  let ns := addNode g.nodes package
  if dependencies.isEmpty then { graph := g.graph, nodes := ns }
  else
    { graph := aset g.graph package
        (dependencies.foldl (fun e dw => aset e dw.1 dw.2) ((alook g.graph package).getD []))
      nodes := dependencies.foldl (fun acc dw => addNode acc dw.1) ns }

/-- Well-formedness maintained by the `DependencyGraph` API: `nodes`
is a set, dict key lists are duplicate-free, and every edge endpoint
is a node (spec §3: "every edge target is also a node"). -/
def wfGraph (g : DependencyGraph) : Prop :=
  g.nodes.Nodup ∧ (fsts g.graph).Nodup ∧
    ∀ e ∈ g.graph, (fsts e.2).Nodup ∧ e.1 ∈ g.nodes ∧ ∀ d ∈ e.2, d.1 ∈ g.nodes

instance (g : DependencyGraph) : Decidable (wfGraph g) := by
  unfold wfGraph
  exact inferInstance

/-- The in-degree initialisation loop of `topo_sort` (graph.py lines
101-103): `in_degree[dep] += 1` for one adjacency dict.  A missing key
raises `KeyError` in Python, modelled by `none`. -/
def bumpAll : List (String × Int) → List (String × Int) → Option (List (String × Int))
  | ind, [] => some ind
  | ind, d :: rest =>
    match alook ind d.1 with
    | none => none
    | some k => bumpAll (aset ind d.1 (k + 1)) rest

/-- The outer loop of the in-degree initialisation (graph.py lines 101-103). -/
def initFold : List (String × Int) → List (String × List (String × Int)) →
    Option (List (String × Int))
  | ind, [] => some ind
  | ind, e :: rest =>
    match bumpAll ind e.2 with
    | none => none
    | some ind' => initFold ind' rest

/-- `in_degree = {node: 0 for node in self.nodes}` followed by the edge
counting loop (graph.py lines 100-103). -/
def initIndeg (g : DependencyGraph) : Option (List (String × Int)) :=
  initFold (g.nodes.map fun n => (n, (0 : Int))) g.graph

/-- The neighbour-processing loop of one Kahn iteration (graph.py lines
111-114): decrement each neighbour's in-degree and enqueue it when the
decremented value is exactly `0`. -/
def decAll : List (String × Int) → List (String × Int) → List String →
    Option (List (String × Int) × List String)
  | ind, [], pushed => some (ind, pushed)
  | ind, d :: rest, pushed =>
    match alook ind d.1 with
    | none => none
    | some k =>
      decAll (aset ind d.1 (k - 1)) rest (if k - 1 = 0 then pushed ++ [d.1] else pushed)

/-- The Kahn `while queue:` loop of `topo_sort` (graph.py lines 105-119).
The Python loop always terminates because a node is enqueued at most
once after its in-degree reaches zero; the explicit `fuel` argument
(`2 * |nodes| + 1` at the call site) makes that bound syntactic. -/
def kahnLoop (adj : List (String × List (String × Int))) (total : Nat) :
    Nat → List (String × Int) → List String → List String → Except String (List String)
  | 0, _, _, _ => .error "fuel exhausted"
  | _ + 1, _, [], order =>
      if order.length = total then .ok order
      else .error "Ciclo de dependências detectado no grafo!"
  | fuel + 1, ind, node :: rest, order =>
      match decAll ind ((alook adj node).getD []) [] with
      | none => .error "KeyError"
      | some (ind', pushed) => kahnLoop adj total fuel ind' (rest ++ pushed) (order ++ [node])

/-- `topo_sort` (graph.py lines 95-119): Kahn's algorithm over
`in_degree`, starting from the nodes of in-degree `0`, raising
(`Except.error`) when a cycle leaves nodes unemitted. -/
def topo_sort (g : DependencyGraph) : Except String (List String) :=
  match initIndeg g with
  | none => .error "KeyError"
  | some ind =>
      kahnLoop g.graph g.nodes.length (2 * g.nodes.length + 1) ind
        (fsts (ind.filter fun p => decide (p.2 = 0))) []

/-! #### Counting helpers for the Kahn invariant

`occs l v` counts occurrences of `v` in `l`; `entCnt adj v` is the total
number of `(u, v)` edge slots in the adjacency list (what the in-degree
initialisation computes); `pend adj order v` counts adjacency entries
that target `v` and whose source has not been emitted into `order` yet;
`tCnt adj u v` counts entries with source `u` targeting `v`. -/

def occs (l : List String) (v : String) : Nat :=
  (l.filter fun x => decide (x = v)).length

def entCnt (adj : List (String × List (String × Int))) (v : String) : Nat :=
  (adj.map fun e => occs (fsts e.2) v).sum

def pend (adj : List (String × List (String × Int))) (order : List String) (v : String) : Nat :=
  (adj.filter fun e => decide (v ∈ fsts e.2) && decide (e.1 ∉ order)).length

def tCnt (adj : List (String × List (String × Int))) (u v : String) : Nat :=
  (adj.filter fun e => decide (e.1 = u) && decide (v ∈ fsts e.2)).length

theorem occs_cons (x : String) (l : List String) (v : String) :
    occs (x :: l) v = (if x = v then 1 else 0) + occs l v := by
  by_cases h : x = v <;> simp [occs, List.filter_cons, h] <;> omega

theorem occs_nodup {l : List String} (h : l.Nodup) (v : String) :
    occs l v = if v ∈ l then 1 else 0 := by
  induction l with
  | nil => simp [occs]
  | cons x t ih =>
      have hx : x ∉ t := (List.nodup_cons.mp h).1
      have ih' := ih (List.nodup_cons.mp h).2
      rw [occs_cons, ih']
      by_cases hxv : x = v
      · subst hxv
        simp [hx]
      · have : (v ∈ x :: t) ↔ v ∈ t := by
          simp [List.mem_cons]
          intro hv
          exact absurd hv.symm hxv
        rw [if_neg hxv]
        by_cases hv : v ∈ t <;> simp [this, hv]

theorem pend_cons (e : String × List (String × Int)) (adj : List (String × List (String × Int)))
    (order : List String) (v : String) :
    pend (e :: adj) order v
      = (if v ∈ fsts e.2 ∧ e.1 ∉ order then 1 else 0) + pend adj order v := by
  by_cases h1 : v ∈ fsts e.2 <;> by_cases h2 : e.1 ∈ order <;>
    simp [pend, List.filter_cons, h1, h2] <;> omega

theorem tCnt_cons (e : String × List (String × Int)) (adj : List (String × List (String × Int)))
    (u v : String) :
    tCnt (e :: adj) u v = (if e.1 = u ∧ v ∈ fsts e.2 then 1 else 0) + tCnt adj u v := by
  by_cases h1 : e.1 = u <;> by_cases h2 : v ∈ fsts e.2 <;>
    simp [tCnt, List.filter_cons, h1, h2] <;> omega

theorem entCnt_eq_pend_nil {adj : List (String × List (String × Int))}
    (h : ∀ e ∈ adj, (fsts e.2).Nodup) (v : String) :
    entCnt adj v = pend adj [] v := by
  induction adj with
  | nil => simp [entCnt, pend]
  | cons e t ih =>
      have he := h e (List.mem_cons_self _ _)
      have ih' := ih fun e' he' => h e' (List.mem_cons_of_mem _ he')
      rw [pend_cons]
      show occs (fsts e.2) v + entCnt t v = _
      rw [occs_nodup he, ih']
      by_cases hv : v ∈ fsts e.2 <;> simp [hv]

theorem pend_pop {order : List String} {u : String} (hu : u ∉ order)
    (adj : List (String × List (String × Int))) (v : String) :
    pend adj (order ++ [u]) v + tCnt adj u v = pend adj order v := by
  induction adj with
  | nil => simp [pend, tCnt]
  | cons e t ih =>
      rw [pend_cons, pend_cons, tCnt_cons]
      have hmem : (e.1 ∈ order ++ [u]) ↔ e.1 ∈ order ∨ e.1 = u := by
        simp [List.mem_append]
      by_cases h1 : e.1 = u
      · have hin : e.1 ∈ order ++ [u] := by simp [h1]
        by_cases h2 : v ∈ fsts e.2 <;> simp [hin, hu, h1, h2] <;> omega
      · have : (e.1 ∈ order ++ [u]) ↔ e.1 ∈ order := by
          rw [hmem]
          simp [h1]
        by_cases h2 : v ∈ fsts e.2 <;> by_cases h3 : e.1 ∈ order <;>
          simp [this, h1, h2, h3] <;> omega

theorem tCnt_eq_zero {adj : List (String × List (String × Int))} {u : String}
    (h : u ∉ fsts adj) (v : String) : tCnt adj u v = 0 := by
  induction adj with
  | nil => simp [tCnt]
  | cons e t ih =>
      rw [fsts_cons] at h
      have h1 : e.1 ≠ u := fun he => h (by rw [he]; exact List.mem_cons_self _ _)
      have h2 : u ∉ fsts t := fun ht => h (List.mem_cons_of_mem _ ht)
      rw [tCnt_cons, ih h2]
      simp [h1]

theorem tCnt_alook {adj : List (String × List (String × Int))}
    (hk : (fsts adj).Nodup) (u v : String) :
    tCnt adj u v = if v ∈ fsts ((alook adj u).getD []) then 1 else 0 := by
  induction adj with
  | nil => simp [tCnt, alook, fsts]
  | cons e t ih =>
      rw [fsts_cons] at hk
      have hk1 : e.1 ∉ fsts t := (List.nodup_cons.mp hk).1
      have hk2 := (List.nodup_cons.mp hk).2
      by_cases he : e.1 = u
      · have hzero : tCnt t u v = 0 := tCnt_eq_zero (he ▸ hk1) v
        rw [tCnt_cons, hzero]
        simp [alook, he]
      · rw [tCnt_cons, ih hk2]
        simp [alook, he]

theorem pend_zero_mem {adj : List (String × List (String × Int))} {order : List String}
    {v : String} (h : pend adj order v = 0) :
    ∀ e ∈ adj, v ∈ fsts e.2 → e.1 ∈ order := by
  intro e he hv
  have hnil := List.length_eq_zero.mp h
  have := List.filter_eq_nil_iff.mp hnil e he
  simp [hv] at this
  exact this

theorem pend_zero_of_all {adj : List (String × List (String × Int))} {order : List String}
    {v : String} (h : ∀ e ∈ adj, v ∈ fsts e.2 → e.1 ∈ order) :
    pend adj order v = 0 := by
  unfold pend
  rw [List.length_eq_zero]
  apply List.filter_eq_nil_iff.mpr
  intro e he
  by_cases hv : v ∈ fsts e.2
  · simp [hv, h e he hv]
  · simp [hv]

theorem alook_map_zero (ns : List String) (v : String) :
    alook (ns.map fun n => (n, (0 : Int))) v = if v ∈ ns then some 0 else none := by
  induction ns with
  | nil => simp [alook]
  | cons x t ih =>
      by_cases h : x = v
      · simp [alook, h]
      · have h' : ¬(v = x) := fun e => h e.symm
        simp [alook, h, h', ih, List.mem_cons]

theorem decAll_spec :
    ∀ (deps : List (String × Int)), (fsts deps).Nodup →
    ∀ ind acc ind' pushed, decAll ind deps acc = some (ind', pushed) →
      fsts ind' = fsts ind ∧
      (∀ v, alook ind' v
          = (alook ind v).map fun k => k - if v ∈ fsts deps then 1 else 0) ∧
      pushed = acc ++ (fsts deps).filter fun d => decide (alook ind d = some 1) := by
  intro deps
  induction deps with
  | nil =>
      intro _ ind acc ind' pushed h
      simp [decAll] at h
      obtain ⟨h1, h2⟩ := h
      subst h1
      subst h2
      refine ⟨rfl, fun v => ?_, by simp [fsts]⟩
      cases alook ind v <;> simp [fsts]
  | cons d rest ih =>
      intro hnd ind acc ind' pushed h
      rw [fsts_cons] at hnd
      have hnd1 : d.1 ∉ fsts rest := (List.nodup_cons.mp hnd).1
      have hnd2 : (fsts rest).Nodup := (List.nodup_cons.mp hnd).2
      cases hl : alook ind d.1 with
      | none => simp [decAll, hl] at h
      | some k =>
          simp only [decAll, hl] at h
          obtain ⟨hk', hv', hp'⟩ := ih hnd2 _ _ _ _ h
          have hdmem : d.1 ∈ fsts ind := mem_fsts.mpr ⟨k, mem_of_alook hl⟩
          refine ⟨?_, ?_, ?_⟩
          · rw [hk', fsts_aset_of_mem _ hdmem]
          · intro v
            by_cases hv : v = d.1
            · subst hv
              rw [hv' d.1, alook_aset_self]
              simp [hnd1, hl, fsts_cons]
            · have hne : d.1 ≠ v := fun e => hv e.symm
              rw [hv' v, alook_aset_ne _ _ _ _ hne]
              have hmem : (v ∈ fsts (d :: rest)) ↔ v ∈ fsts rest := by
                rw [fsts_cons]
                simp [List.mem_cons]
                intro h'
                exact absurd h' hv
              simp only [hmem]
          · rw [hp']
            have hfil : ((fsts rest).filter
                  fun x => decide (alook (aset ind d.1 (k - 1)) x = some 1))
                = (fsts rest).filter fun x => decide (alook ind x = some 1) := by
              apply List.filter_congr
              intro x hx
              have hne : d.1 ≠ x := fun e => hnd1 (e ▸ hx)
              rw [alook_aset_ne _ _ _ _ hne]
            rw [hfil, fsts_cons, List.filter_cons]
            by_cases hk1 : k - 1 = 0
            · have hdec : decide (alook ind d.1 = some 1) = true := by
                simp [hl]
                omega
              simp [hk1, hdec]
            · have hdec : decide (alook ind d.1 = some 1) = false := by
                simp [hl]
                omega
              simp [hk1, hdec]

theorem bumpAll_spec :
    ∀ (deps : List (String × Int)) ind ind', bumpAll ind deps = some ind' →
      fsts ind' = fsts ind ∧
      ∀ v, alook ind' v = (alook ind v).map fun k => k + (occs (fsts deps) v : Int) := by
  intro deps
  induction deps with
  | nil =>
      intro ind ind' h
      simp [bumpAll] at h
      subst h
      refine ⟨rfl, fun v => ?_⟩
      cases alook ind v <;> simp [occs, fsts]
  | cons d rest ih =>
      intro ind ind' h
      cases hl : alook ind d.1 with
      | none => simp [bumpAll, hl] at h
      | some k =>
          simp only [bumpAll, hl] at h
          obtain ⟨hk', hv'⟩ := ih _ _ h
          have hdmem : d.1 ∈ fsts ind := mem_fsts.mpr ⟨k, mem_of_alook hl⟩
          refine ⟨by rw [hk', fsts_aset_of_mem _ hdmem], fun v => ?_⟩
          rw [hv' v, fsts_cons, occs_cons]
          by_cases hv : v = d.1
          · subst hv
            rw [alook_aset_self, hl]
            simp
            omega
          · have hne : d.1 ≠ v := fun e => hv e.symm
            rw [alook_aset_ne _ _ _ _ hne]
            have : (if d.1 = v then 1 else 0) = 0 := by simp [hne]
            rw [this]
            simp

theorem initFold_spec :
    ∀ (adj : List (String × List (String × Int))) ind ind', initFold ind adj = some ind' →
      fsts ind' = fsts ind ∧
      ∀ v, alook ind' v = (alook ind v).map fun k => k + (entCnt adj v : Int) := by
  intro adj
  induction adj with
  | nil =>
      intro ind ind' h
      simp [initFold] at h
      subst h
      refine ⟨rfl, fun v => ?_⟩
      cases alook ind v <;> simp [entCnt]
  | cons e rest ih =>
      intro ind ind' h
      cases hb : bumpAll ind e.2 with
      | none => simp [initFold, hb] at h
      | some ind1 =>
          simp only [initFold, hb] at h
          obtain ⟨hk1, hv1⟩ := bumpAll_spec _ _ _ hb
          obtain ⟨hk', hv'⟩ := ih _ _ h
          refine ⟨by rw [hk', hk1], fun v => ?_⟩
          rw [hv' v, hv1 v]
          have : entCnt (e :: rest) v = occs (fsts e.2) v + entCnt rest v := by
            simp [entCnt]
          rw [this]
          cases alook ind v <;> simp <;> omega

theorem initIndeg_spec {g : DependencyGraph} {ind : List (String × Int)}
    (hinner : ∀ e ∈ g.graph, (fsts e.2).Nodup)
    (h : initIndeg g = some ind) :
    fsts ind = g.nodes ∧
    ∀ v, alook ind v = if v ∈ g.nodes then some ((pend g.graph [] v : Nat) : Int) else none := by
  obtain ⟨hk, hv⟩ := initFold_spec _ _ _ h
  have hk0 : fsts (g.nodes.map fun n => (n, (0 : Int))) = g.nodes := by
    rw [fsts, List.map_map,
      show (Prod.fst ∘ fun n : String => (n, (0 : Int))) = id from rfl, List.map_id]
  refine ⟨by rw [hk, hk0], fun v => ?_⟩
  rw [hv v, alook_map_zero]
  by_cases hm : v ∈ g.nodes
  · simp [hm, entCnt_eq_pend_nil hinner]
  · simp [hm]

theorem kahnLoop_sound
    {adj : List (String × List (String × Int))} {nodes : List String}
    (keysNd : (fsts adj).Nodup)
    (innerNd : ∀ e ∈ adj, (fsts e.2).Nodup)
    (targNodes : ∀ e ∈ adj, ∀ d ∈ e.2, d.1 ∈ nodes) :
    ∀ fuel ind queue order res,
      fsts ind = nodes →
      order.Nodup →
      queue.Nodup →
      (∀ x ∈ queue, x ∉ order) →
      (∀ v m, alook ind v = some m → m = (pend adj order v : Int)) →
      (∀ v ∈ queue, pend adj order v = 0) →
      (∀ v ∈ order, ∀ e ∈ adj, v ∈ fsts e.2 → List.Sublist [e.1, v] order) →
      (∀ x ∈ queue, x ∈ nodes) →
      (∀ x ∈ order, x ∈ nodes) →
      kahnLoop adj nodes.length fuel ind queue order = .ok res →
      ∀ e ∈ adj, ∀ d ∈ e.2, List.Sublist [e.1, d.1] res := by
  intro fuel
  induction fuel with
  | zero =>
      intro ind queue order res _ _ _ _ _ _ _ _ _ hres
      simp [kahnLoop] at hres
  | succ fuel ih =>
      intro ind queue order res hkeys hOrdNd hQNd hdisj hind hq0 hord hqsub hosub hres
      cases queue with
      | nil =>
          by_cases hlen : order.length = nodes.length
          · have hresEq : order = res := by simpa [kahnLoop, hlen] using hres
            subst hresEq
            have hperm : List.Perm order nodes :=
              List.Subperm.perm_of_length_le (List.Nodup.subperm hOrdNd hosub)
                (le_of_eq hlen.symm)
            intro e he d hd
            have hvnodes : d.1 ∈ nodes := targNodes e he d hd
            have hvord : d.1 ∈ order := (List.Perm.mem_iff hperm).mpr hvnodes
            exact hord d.1 hvord e he (mem_fsts.mpr ⟨d.2, hd⟩)
          · simp [kahnLoop, hlen] at hres
      | cons node rest =>
          have hduNd : (fsts ((alook adj node).getD [])).Nodup := by
            cases hAl : alook adj node with
            | none => simp [fsts]
            | some deps => exact innerNd (node, deps) (mem_of_alook hAl)
          have hduT : ∀ d ∈ (alook adj node).getD [], d.1 ∈ nodes := by
            cases hAl : alook adj node with
            | none => simp
            | some deps =>
                intro d hd
                exact targNodes (node, deps) (mem_of_alook hAl) d hd
          cases hdec : decAll ind ((alook adj node).getD []) [] with
          | none => simp [kahnLoop, hdec] at hres
          | some pr =>
              obtain ⟨ind', pushed⟩ := pr
              simp only [kahnLoop, hdec] at hres
              obtain ⟨hk', hv', hp'⟩ := decAll_spec _ hduNd _ _ _ _ hdec
              have hnodeNodes : node ∈ nodes := hqsub node (List.mem_cons_self _ _)
              have hnodeOrd : node ∉ order := hdisj node (List.mem_cons_self _ _)
              have hnodeRest : node ∉ rest := (List.nodup_cons.mp hQNd).1
              have hRestNd : rest.Nodup := (List.nodup_cons.mp hQNd).2
              have hq0node : pend adj order node = 0 := hq0 node (List.mem_cons_self _ _)
              have hpend : ∀ v, pend adj (order ++ [node]) v
                  + (if v ∈ fsts ((alook adj node).getD []) then 1 else 0)
                  = pend adj order v := by
                intro v
                rw [← tCnt_alook keysNd node v]
                exact pend_pop hnodeOrd adj v
              have hpushed : pushed
                  = (fsts ((alook adj node).getD [])).filter
                      fun x => decide (alook ind x = some 1) := by simpa using hp'
              have hpush_fact : ∀ x ∈ pushed,
                  alook ind x = some 1 ∧ x ∈ fsts ((alook adj node).getD []) := by
                intro x hx
                rw [hpushed] at hx
                have hx' := List.mem_filter.mp hx
                exact ⟨by simpa using hx'.2, hx'.1⟩
              have hpush_pend : ∀ x ∈ pushed, pend adj order x = 1 := by
                intro x hx
                have h1 := hind x 1 (hpush_fact x hx).1
                exact_mod_cast h1.symm
              have hpush_pend' : ∀ x ∈ pushed, pend adj (order ++ [node]) x = 0 := by
                intro x hx
                have h1 := hpend x
                rw [if_pos (hpush_fact x hx).2] at h1
                have h2 := hpush_pend x hx
                omega
              have hordP0 : ∀ v ∈ order, pend adj order v = 0 := by
                intro v hv
                apply pend_zero_of_all
                intro e he hvf
                exact (hord v hv e he hvf).subset (by simp)
              refine ih ind' (rest ++ pushed) (order ++ [node]) res ?_ ?_ ?_ ?_ ?_ ?_ ?_ ?_ ?_ hres
              · rw [hk', hkeys]
              · rw [List.nodup_append]
                refine ⟨hOrdNd, List.nodup_singleton _, ?_⟩
                intro x hx hx'
                rw [List.mem_singleton] at hx'
                subst hx'
                exact hnodeOrd hx
              · rw [List.nodup_append]
                refine ⟨hRestNd, ?_, ?_⟩
                · rw [hpushed]
                  exact List.Nodup.filter _ hduNd
                · intro x hxr hxp
                  have h1 := hpush_pend x hxp
                  have h0 := hq0 x (List.mem_cons_of_mem _ hxr)
                  omega
              · intro x hx
                rw [List.mem_append] at hx
                rw [List.mem_append, List.mem_singleton]
                push_neg
                rcases hx with hx | hx
                · exact ⟨hdisj x (List.mem_cons_of_mem _ hx),
                    fun he => hnodeRest (he ▸ hx)⟩
                · have h1 := hpush_pend x hx
                  constructor
                  · intro hxo
                    have := hordP0 x hxo
                    omega
                  · intro he
                    rw [he] at h1
                    omega
              · intro v m hm
                rw [hv' v] at hm
                cases h0 : alook ind v with
                | none => rw [h0] at hm; simp at hm
                | some k =>
                    rw [h0] at hm
                    simp at hm
                    have hk := hind v k h0
                    have hpv := hpend v
                    by_cases hmemv : v ∈ fsts ((alook adj node).getD [])
                    · rw [if_pos hmemv] at hpv
                      rw [if_pos hmemv] at hm
                      omega
                    · rw [if_neg hmemv] at hpv
                      rw [if_neg hmemv] at hm
                      omega
              · intro v hv
                rw [List.mem_append] at hv
                rcases hv with hv | hv
                · have h0 := hq0 v (List.mem_cons_of_mem _ hv)
                  have hpv := hpend v
                  by_cases hmemv : v ∈ fsts ((alook adj node).getD []) <;>
                    simp [hmemv] at hpv <;> omega
                · exact hpush_pend' v hv
              · intro v hv e he hvf
                rw [List.mem_append, List.mem_singleton] at hv
                rcases hv with hv | hv
                · exact (hord v hv e he hvf).trans (List.sublist_append_left order [node])
                · subst hv
                  have hkey : e.1 ∈ order := pend_zero_mem hq0node e he hvf
                  have h1 : List.Sublist [e.1] order := List.singleton_sublist.mpr hkey
                  exact List.Sublist.append h1 (List.Sublist.refl [v])
              · intro x hx
                rw [List.mem_append] at hx
                rcases hx with hx | hx
                · exact hqsub x (List.mem_cons_of_mem _ hx)
                · rcases mem_fsts.mp (hpush_fact x hx).2 with ⟨w, hw⟩
                  exact hduT (x, w) hw
              · intro x hx
                rw [List.mem_append, List.mem_singleton] at hx
                rcases hx with hx | hx
                · exact hosub x hx
                · exact hx ▸ hnodeNodes

/-- Soundness of `topo_sort` on well-formed graphs: every emitted order
places a package before each of its dependencies.  (This is the
dependents-first direction actually implemented by graph.py: in-degrees
count how many packages depend on a node, so the queue starts from the
packages nothing depends on.) -/
theorem topo_sort_sound {g : DependencyGraph} {res : List String}
    (hwf : wfGraph g) (h : topo_sort g = .ok res) :
    ∀ e ∈ g.graph, ∀ d ∈ e.2, List.Sublist [e.1, d.1] res := by
  obtain ⟨nodesNd, keysNd, hent⟩ := hwf
  have innerNd : ∀ e ∈ g.graph, (fsts e.2).Nodup := fun e he => (hent e he).1
  have targNodes : ∀ e ∈ g.graph, ∀ d ∈ e.2, d.1 ∈ g.nodes :=
    fun e he d hd => (hent e he).2.2 d hd
  unfold topo_sort at h
  cases hInit : initIndeg g with
  | none => rw [hInit] at h; simp at h
  | some ind =>
      rw [hInit] at h
      obtain ⟨hkeys, hvals⟩ := initIndeg_spec innerNd hInit
      have hQsub : ∀ x ∈ fsts (ind.filter fun p => decide (p.2 = 0)), x ∈ g.nodes := by
        intro x hx
        rcases mem_fsts.mp hx with ⟨w, hw⟩
        have : (x, w) ∈ ind := (List.mem_filter.mp hw).1
        rw [← hkeys]
        exact mem_fsts.mpr ⟨w, this⟩
      refine kahnLoop_sound keysNd innerNd targNodes _ ind _ [] res hkeys
        (List.nodup_nil) ?_ (by simp) ?_ ?_ (by simp) hQsub (by simp) h
      · have : List.Sublist (List.filter (fun p => decide (p.2 = 0)) ind) ind :=
          List.filter_sublist ind
        have hsub : List.Sublist (fsts (ind.filter fun p => decide (p.2 = 0))) (fsts ind) :=
          List.Sublist.map Prod.fst this
        exact hsub.nodup (hkeys ▸ nodesNd)
      · intro v m hm
        rw [hvals v] at hm
        by_cases hv : v ∈ g.nodes
        · rw [if_pos hv] at hm
          simp at hm
          omega
        · rw [if_neg hv] at hm
          simp at hm
      · intro v hv
        rcases mem_fsts.mp hv with ⟨w, hw⟩
        have hmem : (v, w) ∈ ind := (List.mem_filter.mp hw).1
        have hw0 : w = 0 := by simpa using (List.mem_filter.mp hw).2
        have hvn : v ∈ g.nodes := hQsub v hv
        have := alook_of_mem (hkeys ▸ nodesNd) hmem
        rw [hvals v, if_pos hvn] at this
        have : w = ((pend g.graph [] v : Nat) : Int) := by
          simpa using this.symm
        omega

/-- The linear example of the spec: edges `a→b` and `b→c`. -/
def linearGraph : DependencyGraph :=
  add_package (add_package DependencyGraph.init "a" [("b", 1)]) "b" [("c", 1)]

/-- C1 counterexample: with edges `a→b` and `b→c`, `topo_sort` returns
`[a, b, c]` — the dependents-first order — not `[c, b, a]` as the claim
states.  Kahn's queue is seeded from the in-degree-zero nodes, and
in-degrees here count incoming `package → dependency` edges, so the
first node emitted is the package nothing depends on. -/
theorem topo_sort_linear_counterexample :
    topo_sort linearGraph = .ok ["a", "b", "c"] ∧
      (["a", "b", "c"] : List String) ≠ ["c", "b", "a"] := by
  exact ⟨rfl, by decide⟩

/-- C1 (amended): for every well-formed dependency graph, every list
returned by `topo_sort` places each package *before* the packages it
depends on (dependents-first); in particular, after `add_package` edges
`a→b` and `b→c`, `topo_sort` returns `[a, b, c]`. -/
theorem topo_sort_orders_dependents_first :
    (∀ (g : DependencyGraph) (res : List String), wfGraph g → topo_sort g = .ok res →
      ∀ e ∈ g.graph, ∀ d ∈ e.2, List.Sublist [e.1, d.1] res) ∧
    topo_sort linearGraph = .ok ["a", "b", "c"] :=
  ⟨fun _ _ hwf h => topo_sort_sound hwf h, rfl⟩

/-- Witness for C1's theorem at the concrete linear graph: the edge
`a→b` is placed as `a` before `b` in the returned order. -/
theorem topo_sort_orders_dependents_first_witness :
    wfGraph linearGraph ∧ List.Sublist ["a", "b"] ["a", "b", "c"] :=
  ⟨by decide,
    topo_sort_orders_dependents_first.1 linearGraph ["a", "b", "c"] (by decide) rfl
      ("a", [("b", 1)]) (by decide) ("b", 1) (by decide)⟩

/-! ### `graph.py`: JSON export / import -/

/-- `to_dict` (graph.py lines 149-151): a copy of the adjacency dict.
Nodes without an adjacency entry do not appear. -/
def to_dict (g : DependencyGraph) : List (String × List (String × Int)) := g.graph

/-- The node reconstruction of `from_dict` (graph.py lines 156-158):
`nodes = set(graph.keys())` then `nodes.update(deps.keys())` per entry. -/
def collectNodes (d : List (String × List (String × Int))) : List String :=
  d.foldl (fun ns e => e.2.foldl (fun a p => addNode a p.1) ns)
    (d.foldl (fun ns e => addNode ns e.1) [])

/-- `from_dict` (graph.py lines 153-158). -/
def from_dict (d : List (String × List (String × Int))) : DependencyGraph :=
  ⟨d, collectNodes d⟩

/-- `to_json` (graph.py lines 160-162).  `json.dumps` of a dict of
dicts is modelled at the dict level; the `dumps`/`loads` pair of the
standard library is a faithful inverse on such dicts. -/
def to_json (g : DependencyGraph) : List (String × List (String × Int)) := to_dict g

/-- `from_json` (graph.py lines 164-166), see `to_json`. -/
def from_json (d : List (String × List (String × Int))) : DependencyGraph := from_dict d

theorem mem_foldl_addNode {α : Type _} (f : α → String) :
    ∀ (l : List α) (acc : List String) (x : String),
      x ∈ l.foldl (fun a e => addNode a (f e)) acc ↔ x ∈ acc ∨ ∃ e ∈ l, f e = x := by
  intro l
  induction l with
  | nil => simp
  | cons e t ih =>
      intro acc x
      rw [List.foldl_cons, ih]
      rw [mem_addNode]
      constructor
      · rintro (⟨h | h⟩ | ⟨e', he', hx⟩)
        · exact Or.inl h
        · exact Or.inr ⟨e, List.mem_cons_self _ _, h.symm⟩
        · exact Or.inr ⟨e', List.mem_cons_of_mem _ he', hx⟩
      · rintro (h | ⟨e', he', hx⟩)
        · exact Or.inl (Or.inl h)
        · rcases List.mem_cons.mp he' with he' | he'
          · subst he'
            exact Or.inl (Or.inr hx.symm)
          · exact Or.inr ⟨e', he', hx⟩

theorem mem_collect_aux :
    ∀ (d : List (String × List (String × Int))) (acc : List String) (x : String),
      x ∈ d.foldl (fun ns e => e.2.foldl (fun a p => addNode a p.1) ns) acc ↔
        x ∈ acc ∨ ∃ e ∈ d, x ∈ fsts e.2 := by
  intro d
  induction d with
  | nil => simp
  | cons e t ih =>
      intro acc x
      rw [List.foldl_cons, ih, mem_foldl_addNode (fun p : String × Int => p.1)]
      have hf : (∃ p ∈ e.2, p.1 = x) ↔ x ∈ fsts e.2 := by
        constructor
        · rintro ⟨p, hp, hx⟩
          exact hx ▸ List.mem_map.mpr ⟨p, hp, rfl⟩
        · intro hx
          rcases mem_fsts.mp hx with ⟨v, hv⟩
          exact ⟨(x, v), hv, rfl⟩
      rw [hf]
      constructor
      · rintro (⟨h | h⟩ | ⟨e', he', hx⟩)
        · exact Or.inl h
        · exact Or.inr ⟨e, List.mem_cons_self _ _, h⟩
        · exact Or.inr ⟨e', List.mem_cons_of_mem _ he', hx⟩
      · rintro (h | ⟨e', he', hx⟩)
        · exact Or.inl (Or.inl h)
        · rcases List.mem_cons.mp he' with he' | he'
          · subst he'
            exact Or.inl (Or.inr hx)
          · exact Or.inr ⟨e', he', hx⟩

theorem mem_collectNodes {d : List (String × List (String × Int))} {x : String} :
    x ∈ collectNodes d ↔ x ∈ fsts d ∨ ∃ e ∈ d, x ∈ fsts e.2 := by
  unfold collectNodes
  rw [mem_collect_aux, mem_foldl_addNode Prod.fst]
  have hf : (∃ e ∈ d, e.1 = x) ↔ x ∈ fsts d := by
    constructor
    · rintro ⟨e, he, hx⟩
      exact hx ▸ List.mem_map.mpr ⟨e, he, rfl⟩
    · intro hx
      rcases mem_fsts.mp hx with ⟨v, hv⟩
      exact ⟨(x, v), hv, rfl⟩
  rw [hf]
  simp

/-- C7 counterexample: a graph holding the single isolated node `a`
(added by `add_package` with no dependencies) loses that node across
`from_json ∘ to_json`, because `to_dict` serialises only the adjacency
dict and `add_package` never creates an adjacency entry for a package
without dependencies. -/
theorem graph_roundtrip_counterexample :
    "a" ∈ (add_package DependencyGraph.init "a" []).nodes ∧
      "a" ∉ (from_json (to_json (add_package DependencyGraph.init "a" []))).nodes := by
  decide

/-- C7 (amended): `from_json ∘ to_json` preserves the adjacency
structure (hence every edge with its weight) exactly, and the node set
of the round-tripped graph consists precisely of the names occurring in
the adjacency dict — as a source key or as a dependency target.  Nodes
isolated from the adjacency dict are dropped. -/
theorem graph_roundtrip_edges_and_adjacent_nodes (g : DependencyGraph) :
    (from_json (to_json g)).graph = g.graph ∧
      ∀ v, v ∈ (from_json (to_json g)).nodes ↔
        v ∈ fsts g.graph ∨ ∃ e ∈ g.graph, v ∈ fsts e.2 :=
  ⟨rfl, fun _ => mem_collectNodes⟩

/-! ### `fakeroot.py`: the staging sandbox -/

/-- One manifest value (fakeroot.py lines 107-109 and 121): either file
metadata from `stat` or a recorded symlink target. -/
inductive FileMeta where
  | fileMeta (size : Nat) (mtime : Nat) (mode : Nat)
  | symlinkMeta (target : String)
deriving DecidableEq

/-- `FakeRoot` state (fakeroot.py lines 18-26): the installed-files
manifest (a dict keyed by destination path), the snapshot list, and the
set of paths existing on disk under `dest_path` (the model of the real
filesystem side effects). -/
structure FakeRoot where
  installed_files : List (String × FileMeta)
  snapshots : List (List (String × FileMeta))
  disk : List String
deriving DecidableEq

/-- `snapshot` (fakeroot.py lines 156-162): append a copy of the
manifest and return it.  The `timestamp` field of the Python snapshot
dict comes from the wall clock and plays no role in `rollback`, so it
is not modelled. -/
def FakeRoot.snapshot (fr : FakeRoot) : List (String × FileMeta) × FakeRoot :=
  (fr.installed_files, { fr with snapshots := fr.snapshots ++ [fr.installed_files] })

/-- The manifest/disk effect of installing one existing source file
(fakeroot.py lines 92-96): `shutil.copy2` materialises the destination
path and `self.installed_files[dst] = metadata` records it. -/
def FakeRoot.record_file (fr : FakeRoot) (path : String) (meta : FileMeta) : FakeRoot :=
  { fr with installed_files := aset fr.installed_files path meta,
            disk := addNode fr.disk path }

/-- `create_symlink` (fakeroot.py lines 115-122): place the link and
store `{symlink: target}` in the manifest. -/
def FakeRoot.create_symlink (fr : FakeRoot) (target link_path : String) : FakeRoot :=
  { fr with installed_files := aset fr.installed_files link_path (.symlinkMeta target),
            disk := addNode fr.disk link_path }

/-- `rollback` (fakeroot.py lines 164-180): with no snapshot available
it only warns; otherwise it pops the last snapshot, computes
`current_files - snapshot_files` and deletes those paths from disk and
from the manifest.  Entries whose key is in the snapshot are kept with
their *current* value — nothing is restored. -/
def FakeRoot.rollback (fr : FakeRoot) : FakeRoot :=
  match fr.snapshots.getLast? with
  | none => fr
  | some snap =>
      let toRemove := (fsts fr.installed_files).filter fun p => decide (p ∉ fsts snap)
      { installed_files := fr.installed_files.filter fun e => decide (e.1 ∈ fsts snap),
        snapshots := fr.snapshots.dropLast,
        disk := fr.disk.filter fun p => decide (p ∉ toRemove) }

theorem alook_filter_mem {β : Type _} (ks : List String) :
    ∀ (l : List (String × β)) (k : String), k ∈ ks →
      alook (l.filter fun e => decide (e.1 ∈ ks)) k = alook l k := by
  intro l
  induction l with
  | nil => intro k _; simp
  | cons e t ih =>
      intro k hk
      by_cases he : e.1 = k
      · have : e.1 ∈ ks := he ▸ hk
        rw [List.filter_cons, if_pos (by simpa using this)]
        simp [alook, he]
      · by_cases hp : e.1 ∈ ks
        · rw [List.filter_cons, if_pos (by simpa using hp)]
          simp [alook, he, ih k hk]
        · rw [List.filter_cons, if_neg (by simpa using hp)]
          simp [alook, he, ih k hk]

/-- C3 counterexample: snapshot, then overwrite the metadata of an
already-recorded path (fakeroot.py line 95 executes for an existing
key too), then rollback.  The key survives in the manifest with its
*new* metadata, so the map is not restored "exactly to its contents at
the snapshot". -/
theorem fakeroot_rollback_counterexample :
    ((FakeRoot.mk [("f", .fileMeta 1 0 0)] [] ["f"]).snapshot.2.record_file
        "f" (.fileMeta 2 5 5)).rollback.installed_files = [("f", .fileMeta 2 5 5)] ∧
      [("f", FileMeta.fileMeta 2 5 5)] ≠ [("f", FileMeta.fileMeta 1 0 0)] := by
  exact ⟨rfl, by decide⟩

/-- C3 (amended): a `rollback` with an empty snapshot stack changes
nothing (neither manifest, snapshots nor disk); a `rollback` against
the most recent snapshot never deletes a manifest entry whose key is in
the snapshot, keeps only keys of the snapshot, and restores the
manifest exactly whenever the operations since the snapshot did not
overwrite or delete snapshot entries (in particular when they only
added new paths). -/
theorem fakeroot_rollback_spec :
    (∀ fr : FakeRoot, fr.snapshots = [] → fr.rollback = fr) ∧
    ∀ (fr : FakeRoot) (rest : List (List (String × FileMeta)))
      (snap : List (String × FileMeta)), fr.snapshots = rest ++ [snap] →
      (∀ k, k ∈ fsts snap → k ∈ fsts fr.installed_files →
          k ∈ fsts fr.rollback.installed_files) ∧
      (∀ k, k ∈ fsts fr.rollback.installed_files → k ∈ fsts snap) ∧
      ((fsts snap).Nodup →
        (∀ e ∈ snap, alook fr.installed_files e.1 = some e.2) →
        ∀ k, alook fr.rollback.installed_files k = alook snap k) := by
  constructor
  · intro fr h
    unfold FakeRoot.rollback
    rw [h]
    rfl
  · intro fr rest snap hsnap
    have hlast : fr.snapshots.getLast? = some snap := by
      rw [hsnap]
      exact List.getLast?_concat _
    have hroll : fr.rollback.installed_files
        = fr.installed_files.filter fun e => decide (e.1 ∈ fsts snap) := by
      unfold FakeRoot.rollback
      rw [hlast]
    refine ⟨?_, ?_, ?_⟩
    · intro k hks hkc
      rw [hroll]
      rcases mem_fsts.mp hkc with ⟨v, hv⟩
      apply mem_fsts.mpr
      exact ⟨v, List.mem_filter.mpr ⟨hv, by simpa using hks⟩⟩
    · intro k hk
      rw [hroll] at hk
      rcases mem_fsts.mp hk with ⟨v, hv⟩
      have := List.mem_filter.mp hv
      simpa using this.2
    · intro hndS hpres k
      rw [hroll]
      by_cases hks : k ∈ fsts snap
      · rw [alook_filter_mem _ _ _ hks]
        rcases mem_fsts.mp hks with ⟨v, hv⟩
        rw [alook_of_mem hndS hv, hpres (k, v) hv]
      · have h1 : alook (fr.installed_files.filter
            fun e => decide (e.1 ∈ fsts snap)) k = none := by
          apply alook_eq_none.mpr
          intro hmem
          rcases mem_fsts.mp hmem with ⟨v, hv⟩
          exact hks (by simpa using (List.mem_filter.mp hv).2)
        rw [h1, alook_eq_none.mpr hks]

/-- Witness for C3's theorem: a sandbox whose manifest gained `g` after
the snapshot `[("f", …)]`; rollback keeps `f` untouched and removes
`g`, and on the no-snapshot sandbox rollback is the identity. -/
theorem fakeroot_rollback_spec_witness :
    (FakeRoot.mk [("f", .fileMeta 1 0 0)] [] ["f"]).rollback
        = FakeRoot.mk [("f", .fileMeta 1 0 0)] [] ["f"] ∧
      alook (FakeRoot.mk [("f", .fileMeta 1 0 0), ("g", .fileMeta 2 0 0)]
          [[("f", .fileMeta 1 0 0)]] ["f", "g"]).rollback.installed_files "g"
        = alook [("f", FileMeta.fileMeta 1 0 0)] "g" :=
  ⟨fakeroot_rollback_spec.1 _ rfl,
    ((fakeroot_rollback_spec.2
        (FakeRoot.mk [("f", .fileMeta 1 0 0), ("g", .fileMeta 2 0 0)]
          [[("f", .fileMeta 1 0 0)]] ["f", "g"])
        [] [("f", .fileMeta 1 0 0)] rfl).2.2 (by decide) (by decide) "g")⟩

/-! ### `remove.py`: the remover -/

/-- `Remover` state: the sandbox it owns and its history entries'
status strings (remove.py lines 16-24; timestamps are wall clock and
not modelled, `removed_files` is always `[]` on the failure path). -/
structure RemoverState where
  fake_root : FakeRoot
  history : List String
deriving DecidableEq

/-- `remove_package` (remove.py lines 87-118).  The first statement of
the `try` block calls `_check_dependencies` (lines 39-43), which
invokes `self.resolver.get_reverse_dependencies(package)`; the
`DependencyResolver` class (resolver.py) defines only
`find_reverse_dependencies`, so Python raises `AttributeError` before
any hook, file removal or database update runs.  The blanket
`except Exception` branch then rolls the sandbox back, appends an
`error:` history entry and returns `False` — for every package, every
installed-db content and both values of `force`. -/
def remove_package (st : RemoverState) (package : String) (force : Bool) :
    Bool × RemoverState :=
  let fr1 := st.fake_root.snapshot.2
  let errMsg :=
    "'DependencyResolver' object has no attribute 'get_reverse_dependencies'"
  (false, { fake_root := fr1.rollback,
            history := st.history ++ ["error: " ++ errMsg] })

/-- C2: `remove_package` returns `False` unconditionally — also with
`force=true`, where the claim (and spec scenario 5) expects `True` —
because `_check_dependencies` calls the nonexistent
`resolver.get_reverse_dependencies` and the resulting `AttributeError`
is swallowed by the `except` branch.  The second conjunct evaluates the
spec's scenario (remove `a` with `force=true`). -/
theorem remove_package_always_false :
    (∀ (st : RemoverState) (package : String) (force : Bool),
        (remove_package st package force).1 = false) ∧
      (remove_package
          ⟨⟨[("usr/bin/a", .fileMeta 1 0 0)], [], ["usr/bin/a"]⟩, []⟩
          "a" true).1 = false :=
  ⟨fun _ _ _ => rfl, rfl⟩

/-! ### `cache.py`: the download cache -/

/-- One cached file as the validity logic observes it: its
modification time, whether `open(...).read(1)` succeeds, and its
on-disk size (cache.py lines 89-100 and 125-137). -/
structure CacheFile where
  mtime : Int
  readable : Bool
  size : Nat
deriving DecidableEq

/-- `CacheManager` configuration (cache.py lines 16-26): the cache
roots with their directory contents, `max_age` (a `timedelta`, here in
the same time unit as `mtime`), and `max_size = max_size_mb * 1024 *
1024` — which is stored but never consulted again anywhere in the
module. -/
structure CacheManager where
  cache_dirs : List (List (String × CacheFile))
  max_age : Int
  max_size : Nat
deriving DecidableEq

/-- `_is_valid` (cache.py lines 89-100): expired when
`now - mtime > max_age`, corrupted when the 1-byte read probe raises;
otherwise valid.  `max_size` does not appear. -/
def is_valid (cm : CacheManager) (now : Int) (f : CacheFile) : Bool :=
  if now - f.mtime > cm.max_age then false
  else if !f.readable then false
  else true

/-- The root scan of `get_file` (cache.py lines 78-82). -/
def get_file_go (cm : CacheManager) (now : Int) (filename : String) :
    List (List (String × CacheFile)) → Option CacheFile
  | [] => none
  | d :: rest =>
    match alook d filename with
    | some f => if is_valid cm now f then some f else get_file_go cm now filename rest
    | none => get_file_go cm now filename rest

/-- `get_file` (cache.py lines 77-84): the first root whose entry
exists and passes `_is_valid`. -/
def get_file (cm : CacheManager) (now : Int) (filename : String) : Option CacheFile :=
  get_file_go cm now filename cm.cache_dirs

/-- `clean_cache` (cache.py lines 105-120): unlink every file that is
forced or fails `_is_valid`; the surviving entries are exactly the
valid ones when `force` is off.  (Unlink failures only log; the model
takes the successful-removal behaviour.) -/
def clean_cache (cm : CacheManager) (now : Int) (force : Bool) : CacheManager :=
  { cm with cache_dirs :=
      cm.cache_dirs.map fun d => d.filter fun e => !force && is_valid cm now e.2 }

/-- `list_cache` (cache.py lines 125-137) projected onto the modelled
fields: `(file, size, valid)` per cache entry. -/
def list_cache (cm : CacheManager) (now : Int) : List (String × Nat × Bool) :=
  cm.cache_dirs.foldl
    (fun acc d => acc ++ d.map fun e => (e.1, e.2.size, is_valid cm now e.2)) []

/-- The validity predicate exactly as claim C8 words it (age bound AND
readable AND size-bounded against the `max_size` quota), for comparison
with the implemented `_is_valid`. -/
def is_valid_claimed (cm : CacheManager) (now : Int) (f : CacheFile) : Bool :=
  (now - f.mtime ≤ cm.max_age) && f.readable && (f.size ≤ cm.max_size)

theorem mem_foldl_append {α β : Type _} (f : β → List α) :
    ∀ (l : List β) (acc : List α) (x : α),
      x ∈ l.foldl (fun a d => a ++ f d) acc ↔ x ∈ acc ∨ ∃ d ∈ l, x ∈ f d := by
  intro l
  induction l with
  | nil => simp
  | cons d t ih =>
      intro acc x
      rw [List.foldl_cons, ih, List.mem_append]
      constructor
      · rintro (⟨h | h⟩ | ⟨d', hd', hx⟩)
        · exact Or.inl h
        · exact Or.inr ⟨d, List.mem_cons_self _ _, h⟩
        · exact Or.inr ⟨d', List.mem_cons_of_mem _ hd', hx⟩
      · rintro (h | ⟨d', hd', hx⟩)
        · exact Or.inl (Or.inl h)
        · rcases List.mem_cons.mp hd' with hd' | hd'
          · subst hd'
            exact Or.inl (Or.inr hx)
          · exact Or.inr ⟨d', hd', hx⟩

/-- C8 counterexample: a fresh, readable file larger than the
configured quota.  `_is_valid` accepts it although the claimed
validity (with the size bound) rejects it — the quota is never
consulted. -/
theorem cache_is_valid_counterexample :
    is_valid ⟨[], 30, 10⟩ 0 ⟨0, true, 11⟩ = true ∧
      is_valid_claimed ⟨[], 30, 10⟩ 0 ⟨0, true, 11⟩ = false := by
  decide

/-- C8 (amended): a cache file is valid iff its age is at most
`max_age` and it is readable — there is no size check.  The same
predicate governs `get_file` (a returned hit is valid), `clean_cache`
(without `force`, exactly the valid entries survive) and the `valid`
flag of `list_cache`. -/
theorem cache_is_valid_spec :
    (∀ (cm : CacheManager) (now : Int) (f : CacheFile),
        is_valid cm now f = ((now - f.mtime ≤ cm.max_age) && f.readable)) ∧
    (∀ (cm : CacheManager) (now : Int) (filename : String) (f : CacheFile),
        get_file cm now filename = some f → is_valid cm now f = true) ∧
    (∀ (cm : CacheManager) (now : Int) (d : List (String × CacheFile)),
        d ∈ (clean_cache cm now false).cache_dirs →
          ∀ e ∈ d, is_valid cm now e.2 = true) ∧
    (∀ (cm : CacheManager) (now : Int) (name : String) (sz : Nat) (vflag : Bool),
        (name, sz, vflag) ∈ list_cache cm now →
          ∃ d ∈ cm.cache_dirs, ∃ f, (name, f) ∈ d ∧ sz = f.size ∧
            vflag = is_valid cm now f) := by
  refine ⟨?_, ?_, ?_, ?_⟩
  · intro cm now f
    unfold is_valid
    by_cases h1 : now - f.mtime > cm.max_age
    · rw [if_pos h1]
      have : ¬(now - f.mtime ≤ cm.max_age) := by omega
      simp [this]
    · rw [if_neg h1]
      have h2 : now - f.mtime ≤ cm.max_age := by omega
      cases hr : f.readable <;> simp [h2, hr]
  · intro cm now filename f
    unfold get_file
    generalize cm.cache_dirs = ds
    induction ds with
    | nil => intro h; simp [get_file_go] at h
    | cons d rest ih =>
        intro h
        rw [get_file_go] at h
        cases hl : alook d filename with
        | none => rw [hl] at h; exact ih h
        | some f' =>
            simp only [hl] at h
            by_cases hv : is_valid cm now f' = true
            · rw [if_pos hv] at h
              cases h
              exact hv
            · rw [if_neg hv] at h
              exact ih h
  · intro cm now d hd e he
    unfold clean_cache at hd
    simp only [List.mem_map] at hd
    rcases hd with ⟨d0, _, rfl⟩
    have := (List.mem_filter.mp he).2
    simpa using this
  · intro cm now name sz vflag h
    unfold list_cache at h
    rw [mem_foldl_append] at h
    rcases h with h | ⟨d, hd, hx⟩
    · simp at h
    · rcases List.mem_map.mp hx with ⟨e, he, heq⟩
      refine ⟨d, hd, e.2, ?_, ?_, ?_⟩
      · have h1 : e.1 = name := congrArg Prod.fst heq
        rw [← h1]
        exact he
      · exact (congrArg (fun p => p.2.1) heq).symm
      · exact (congrArg (fun p => p.2.2) heq).symm

/-- Witness for C8's theorem: a one-root cache holding a valid file;
`get_file` returns it and the returned hit is `_is_valid`. -/
theorem cache_is_valid_spec_witness :
    is_valid ⟨[[("t.tar", ⟨0, true, 5⟩)]], 30, 10⟩ 0 ⟨0, true, 5⟩ = true :=
  cache_is_valid_spec.2.1 ⟨[[("t.tar", ⟨0, true, 5⟩)]], 30, 10⟩ 0 "t.tar" ⟨0, true, 5⟩ rfl

/-! ### `hooks.py`: the hook dispatcher

Hook callbacks and shell commands act on an abstract world state `σ`.
A native callback (`func`) and a rollback return the mutated state plus
an optional exception message; spawning a shell command is an external
effect modelled by an environment `env : String → σ → σ × CmdResult`
giving each command line its captured output and exit code. -/

/-- Captured result of `subprocess.run` (hooks.py line 92). -/
structure CmdResult where
  stdout : String
  stderr : String
  code : Int
deriving DecidableEq

/-- `Hook` (hooks.py lines 8-28). -/
structure Hook (σ : Type _) where
  stage : String
  package : Option String
  func : Option (σ → σ × Option String)
  commands : List String
  priority : Int
  rollback : Option (σ → σ × Option String)
  condition : Option (Option String → Bool)

/-- `register_hook` (hooks.py lines 54-61) appends to the hook list. -/
def register_hook {σ : Type _} (hooks : List (Hook σ)) (h : Hook σ) : List (Hook σ) :=
  hooks ++ [h]

/-- One history entry (hooks.py lines 111-117; the timestamp is wall
clock and not modelled). -/
structure HistEntry where
  stage : String
  package : Option String
  status : String
  commands_output : String
deriving DecidableEq

/-- Ascending-priority comparison used by `sorted(..., key=lambda h:
h.priority)` (hooks.py line 69). -/
def priorityLe {σ : Type _} (a b : Hook σ) : Prop := a.priority ≤ b.priority

instance {σ : Type _} : DecidableRel (@priorityLe σ) :=
  fun a b => inferInstanceAs (Decidable (a.priority ≤ b.priority))

instance {σ : Type _} : IsTotal (Hook σ) priorityLe :=
  ⟨fun a b => le_total a.priority b.priority⟩

instance {σ : Type _} : IsTrans (Hook σ) priorityLe :=
  ⟨fun _ _ _ hab hbc => le_trans hab hbc⟩

/-- Steps 1-2 of `run_hooks` (hooks.py lines 67-70): select hooks whose
stage matches and whose package is unset or equal to the argument, then
sort ascending by priority (Python `sorted` is stable; so is insertion
sort with a `≤` comparison). -/
def hookSelect {σ : Type _} (hooks : List (Hook σ)) (stage : String)
    (package : Option String) : List (Hook σ) :=
  List.insertionSort priorityLe
    (hooks.filter fun h =>
      decide (h.stage = stage) && decide (h.package = none ∨ h.package = package))

/-- The condition gate (hooks.py line 73): a hook with a condition that
returns falsy is skipped. -/
def condOk {σ : Type _} (h : Hook σ) (package : Option String) : Bool :=
  match h.condition with
  | none => true
  | some c => c package

/-- The shell-command loop (hooks.py lines 88-95): prefix with
`DESTDIR=` when a sandbox is given, accumulate `$ cmd\n stdout stderr\n`,
and raise (`some msg`) on the first non-zero exit code. -/
def runCommands {σ : Type _} (env : String → σ → σ × CmdResult)
    (fakeRoot : Option String) :
    List String → σ → String → σ × String × Option String
  | [], s, out => (s, out, none)
  | c :: rest, s, out =>
    let cmd := match fakeRoot with
      | some root => "DESTDIR=" ++ root ++ " " ++ c
      | none => c
    let (s', r) := env cmd s
    let out' := out ++ "$ " ++ cmd ++ "\n" ++ r.stdout ++ r.stderr ++ "\n"
    if r.code ≠ 0 then (s', out', some ("Comando falhou: " ++ cmd ++ "\n" ++ r.stderr))
    else runCommands env fakeRoot rest s' out'

/-- The `except` branch's rollback call (hooks.py lines 103-108): a
defined rollback runs, and its own failure is only logged (the state it
reached is kept). -/
def applyRollback {σ : Type _} (h : Hook σ) (s : σ) : σ :=
  match h.rollback with
  | some rb => (rb s).1
  | none => s

/-- The command part of a hook body shared by both `func` shapes
(hooks.py lines 88-117): run the commands, then either record success
or catch the failure, roll back, and record `error: <msg>`. -/
def hookCmdPhase {σ : Type _} (env : String → σ → σ × CmdResult)
    (fakeRoot : Option String) (stage : String) (package : Option String)
    (h : Hook σ) (s1 : σ) : σ × HistEntry :=
  let (s2, out, cerr) := runCommands env fakeRoot h.commands s1 ""
  match cerr with
  | some e => (applyRollback h s2, ⟨stage, package, "error: " ++ e, out⟩)
  | none => (s2, ⟨stage, package, "success", out⟩)

/-- One hook execution: the `try`/`except` body of `run_hooks`
(hooks.py lines 76-117).  A raising `func` skips the commands, rolls
back and records `error:` with empty command output. -/
def hookStep {σ : Type _} (env : String → σ → σ × CmdResult)
    (fakeRoot : Option String) (stage : String) (package : Option String)
    (h : Hook σ) (s : σ) : σ × HistEntry :=
  match h.func with
  | some f =>
      let (s1, ferr) := f s
      match ferr with
      | some e => (applyRollback h s1, ⟨stage, package, "error: " ++ e, ""⟩)
      | none => hookCmdPhase env fakeRoot stage package h s1
  | none => hookCmdPhase env fakeRoot stage package h s

/-- The `for hook in applicable_hooks:` loop (hooks.py lines 72-117).
A skipped hook appends no history entry; an executed hook appends
exactly one. -/
def run_hooks_go {σ : Type _} (env : String → σ → σ × CmdResult)
    (fakeRoot : Option String) (stage : String) (package : Option String) :
    List (Hook σ) → σ → List HistEntry → σ × List HistEntry
  | [], s, hist => (s, hist)
  | h :: t, s, hist =>
    if condOk h package = false then
      run_hooks_go env fakeRoot stage package t s hist
    else
      let (s', entry) := hookStep env fakeRoot stage package h s
      run_hooks_go env fakeRoot stage package t s' (hist ++ [entry])

/-- `run_hooks` (hooks.py lines 63-117). -/
def run_hooks {σ : Type _} (env : String → σ → σ × CmdResult)
    (hooks : List (Hook σ)) (stage : String) (package : Option String)
    (fakeRoot : Option String) (s : σ) : σ × List HistEntry :=
  run_hooks_go env fakeRoot stage package (hookSelect hooks stage package) s []

/-- The hooks that actually execute: the sorted applicable hooks whose
condition (if any) holds. -/
def executed_hooks {σ : Type _} (hooks : List (Hook σ)) (stage : String)
    (package : Option String) : List (Hook σ) :=
  (hookSelect hooks stage package).filter fun h => condOk h package

theorem run_hooks_go_length {σ : Type _} (env : String → σ → σ × CmdResult)
    (fakeRoot : Option String) (stage : String) (package : Option String) :
    ∀ (l : List (Hook σ)) (s : σ) (hist : List HistEntry),
      (run_hooks_go env fakeRoot stage package l s hist).2.length
        = hist.length + (l.filter fun h => condOk h package).length := by
  intro l
  induction l with
  | nil => intro s hist; simp [run_hooks_go]
  | cons h t ih =>
      intro s hist
      rw [run_hooks_go]
      cases hc : condOk h package with
      | false =>
          rw [if_pos rfl]
          rw [ih, List.filter_cons, hc]
          simp
      | true =>
          rw [if_neg (by simp)]
          rw [ih, List.filter_cons, hc]
          simp
          omega

theorem run_hooks_go_status {σ : Type _} (env : String → σ → σ × CmdResult)
    (fakeRoot : Option String) (stage : String) (package : Option String) :
    ∀ (l : List (Hook σ)) (s : σ) (hist : List HistEntry),
      ∀ entry ∈ (run_hooks_go env fakeRoot stage package l s hist).2,
        entry ∈ hist ∨ entry.status = "success" ∨
          ∃ msg, entry.status = "error: " ++ msg := by
  intro l
  induction l with
  | nil =>
      intro s hist entry hmem
      exact Or.inl hmem
  | cons h t ih =>
      intro s hist entry hmem
      rw [run_hooks_go] at hmem
      cases hc : condOk h package with
      | false =>
          rw [hc, if_pos rfl] at hmem
          exact ih s hist entry hmem
      | true =>
          rw [hc, if_neg (by simp)] at hmem
          rcases ih _ _ entry hmem with hin | hs
          · rcases List.mem_append.mp hin with hin | hin
            · exact Or.inl hin
            · rw [List.mem_singleton] at hin
              subst hin
              right
              cases hf : h.func with
              | none =>
                  rcases hrc : runCommands env fakeRoot h.commands s "" with ⟨s2, out, cerr⟩
                  simp only [hookStep, hf, hookCmdPhase, hrc]
                  cases cerr <;> simp
              | some f =>
                  rcases hfs : f s with ⟨s1, ferr⟩
                  cases ferr with
                  | some e =>
                      simp only [hookStep, hf, hfs]
                      exact Or.inr ⟨e, rfl⟩
                  | none =>
                      rcases hrc : runCommands env fakeRoot h.commands s1 "" with ⟨s2, out, cerr⟩
                      simp only [hookStep, hf, hfs, hookCmdPhase, hrc]
                      cases cerr <;> simp
          · exact Or.inr hs

/-- A benign command environment: every command succeeds with empty
output (the model of a shell where all spawned commands exit 0). -/
def envOk : String → List String → List String × CmdResult := fun _ s => (s, ⟨"", "", 0⟩)

/-- A hook of the spec's priority scenario: a native callback that
appends `tag` to the state list and no shell commands. -/
def hookAppend (stage tag : String) (prio : Int) : Hook (List String) :=
  ⟨stage, none, some (fun s => (s ++ [tag], none)), [], prio, none, none⟩

/-- A hook of the matching stage whose condition always returns false. -/
def gatedHook : Hook (List String) :=
  ⟨"pre_build", none, some (fun s => (s ++ ["X"], none)), [], 10, none, some fun _ => false⟩

/-- C9 counterexample: a hook whose stage matches and whose package is
empty is *not* executed when its `condition` returns false (hooks.py
line 73 `continue`s before running it, and no history entry is
appended), contradicting "executes exactly the hooks whose stage
matches and whose package is empty or equals the given package". -/
theorem run_hooks_condition_counterexample :
    run_hooks envOk [gatedHook] "pre_build" none none [] = ([], []) ∧
      ([] : List String) ≠ ["X"] :=
  ⟨rfl, by decide⟩

/-- C9 (amended): `run_hooks(stage, package)` executes exactly the
hooks whose stage matches, whose package is empty or equals the given
package, *and whose condition (if any) returns true*, one at a time in
ascending priority order; the priorities-20/10/30 scenario appending
`B`, `A`, `C` produces `["A", "B", "C"]`. -/
theorem run_hooks_priority_order :
    (∀ (σ : Type) (hooks : List (Hook σ)) (stage : String) (package : Option String),
        List.Perm (executed_hooks hooks stage package)
          ((hooks.filter fun h =>
              decide (h.stage = stage) && decide (h.package = none ∨ h.package = package)).filter
            fun h => condOk h package) ∧
        List.Pairwise priorityLe (executed_hooks hooks stage package)) ∧
    (∀ (σ : Type) (env : String → σ → σ × CmdResult) (hooks : List (Hook σ))
        (stage : String) (package : Option String) (fakeRoot : Option String) (s : σ),
        (run_hooks env hooks stage package fakeRoot s).2.length
          = (executed_hooks hooks stage package).length) ∧
    (run_hooks envOk
        [hookAppend "pre_build" "B" 20, hookAppend "pre_build" "A" 10,
          hookAppend "pre_build" "C" 30] "pre_build" none none []).1 = ["A", "B", "C"] := by
  refine ⟨?_, ?_, rfl⟩
  · intro σ hooks stage package
    constructor
    · exact List.Perm.filter _ (List.perm_insertionSort priorityLe _)
    · exact List.Pairwise.filter _ (List.sorted_insertionSort priorityLe _)
  · intro σ env hooks stage package fakeRoot s
    unfold run_hooks executed_hooks
    rw [run_hooks_go_length]
    simp

/-- A shell environment in which the command line `false` exits 1 with
`boom` on stderr and every other command succeeds. -/
def envFail : String → List String → List String × CmdResult :=
  fun cmd s => if cmd = "false" then (s, ⟨"", "boom", 1⟩) else (s, ⟨"", "", 0⟩)

/-- A hook whose single shell command fails, with a rollback that
appends `RB` to the state. -/
def failingHook : Hook (List String) :=
  ⟨"build", none, none, ["false"], 10, some (fun s => (s ++ ["RB"], none)), none⟩

/-- A later hook that appends `N`, to observe that execution continues
after a failed hook. -/
def followupHook : Hook (List String) :=
  ⟨"build", none, some (fun s => (s ++ ["N"], none)), [], 20, none, none⟩

/-- A hook whose native callback raises (message `e`). -/
def errFuncHook : Hook (List String) :=
  ⟨"x", none, some (fun s => (s, some "e")), [], 10, none, none⟩

/-- C10: `run_hooks` is a total function of its inputs (no exception
reaches the caller): every executed hook contributes exactly one
history entry whose status is `success` or begins `error: `; a failing
`func` skips the hook's commands, invokes the hook's rollback and
records `error:` with empty command output; and in the concrete
failing-command scenario the rollback state change is applied and the
next hook still runs, one entry each. -/
theorem run_hooks_error_handling :
    (∀ (σ : Type) (env : String → σ → σ × CmdResult) (hooks : List (Hook σ))
        (stage : String) (package : Option String) (fakeRoot : Option String) (s : σ),
        ∀ entry ∈ (run_hooks env hooks stage package fakeRoot s).2,
          entry.status = "success" ∨ ∃ msg, entry.status = "error: " ++ msg) ∧
    (∀ (σ : Type) (env : String → σ → σ × CmdResult) (fakeRoot : Option String)
        (stage : String) (package : Option String) (h : Hook σ) (s s1 : σ)
        (f : σ → σ × Option String) (err : String),
        h.func = some f → f s = (s1, some err) →
        hookStep env fakeRoot stage package h s
          = (applyRollback h s1, ⟨stage, package, "error: " ++ err, ""⟩)) ∧
    run_hooks envFail [failingHook, followupHook] "build" none none []
      = (["RB", "N"],
          [⟨"build", none, "error: Comando falhou: false\nboom", "$ false\nboom\n"⟩,
            ⟨"build", none, "success", ""⟩]) := by
  refine ⟨?_, ?_, rfl⟩
  · intro σ env hooks stage package fakeRoot s entry hmem
    unfold run_hooks at hmem
    rcases run_hooks_go_status env fakeRoot stage package _ s [] entry hmem with h | h
    · simp at h
    · exact h
  · intro σ env fakeRoot stage package h s s1 f err hf hfs
    unfold hookStep
    simp only [hf, hfs]

/-- Witness for C10's theorem: the failing-`func` clause evaluated at a
concrete hook whose callback raises `e` on the empty state. -/
theorem run_hooks_error_handling_witness :
    hookStep envOk none "x" none errFuncHook []
      = (applyRollback errFuncHook [], ⟨"x", none, "error: " ++ "e", ""⟩) :=
  run_hooks_error_handling.2.1 (List String) envOk none "x" none errFuncHook [] []
    (fun s => (s, some "e")) "e" rfl rfl

/-! ### `binpkg.py`: the binary-package store

`tarfile`/`gzip`/`lzma` and `hashlib` are external libraries;
binpkg.py only relies on the archive being a byte stream whose format
round-trips through create/extract, whose malformation is detected by
`tarfile.open`, and whose digest is a deterministic function of the
bytes.  The byte stream is modelled over an abstract byte alphabet
`Tok` (a data byte or a structural marker), archives by an explicit
executable encoding, and the SHA-256 digest by a deterministic
checksum that, like a real digest, is never the falsy empty value. -/

/-- Abstract archive byte: a data byte or a format marker. -/
inductive Tok where
  | b (n : Nat)
  | mark (s : String)
deriving DecidableEq

/-- A directory tree as `tar` sees it: relative path → file bytes. -/
abbrev Tree := List (String × List Nat)

/-- The tar payload for `tar.add(install_path, arcname=...)`
(binpkg.py line 56): the arcname, the member count, then each member
as name, length, data. -/
def tarEncode (arcname : String) (t : Tree) : List Tok :=
  Tok.mark arcname :: Tok.b t.length ::
    (t.map fun e => Tok.mark e.1 :: Tok.b e.2.length :: e.2.map Tok.b).flatten

/-- The on-disk bytes of `tarfile.open(filepath, "w:gz"/"w:xz")`
(binpkg.py lines 54-56): a compression marker wrapping the tar
payload. -/
def archiveBytes (compress : String) (arcname : String) (t : Tree) : List Tok :=
  Tok.mark compress :: tarEncode arcname t

/-- Parse `n` data bytes. -/
def decodeData : Nat → List Tok → Option (List Nat × List Tok)
  | 0, rest => some ([], rest)
  | n + 1, Tok.b x :: rest =>
      match decodeData n rest with
      | some (ds, rest') => some (x :: ds, rest')
      | none => none
  | _ + 1, _ => none

/-- Parse `k` archive members. -/
def decodeFiles : Nat → List Tok → Option (Tree × List Tok)
  | 0, rest => some ([], rest)
  | k + 1, Tok.mark name :: Tok.b len :: rest =>
      match decodeData len rest with
      | some (ds, rest') =>
          match decodeFiles k rest' with
          | some (fs, rest'') => some ((name, ds) :: fs, rest'')
          | none => none
      | none => none
  | _ + 1, _ => none

/-- Model of `tarfile.open(filepath, "r:gz")` plus reading the member
list: succeeds exactly on a well-formed gz archive (a malformed stream
raises `tarfile.ReadError`, modelled by `none`). -/
def gzOpen (bytes : List Tok) : Option (String × Tree) :=
  match bytes with
  | Tok.mark c :: Tok.mark arcname :: Tok.b k :: rest =>
      if c = "gz" then
        match decodeFiles k rest with
        | some (fs, []) => some (arcname, fs)
        | _ => none
      else none
  | _ => none

theorem decodeData_encode (ds : List Nat) (rest : List Tok) :
    decodeData ds.length (ds.map Tok.b ++ rest) = some (ds, rest) := by
  induction ds with
  | nil => simp [decodeData]
  | cons x t ih => simp [decodeData, ih]

theorem decodeFiles_encode (t : Tree) (rest : List Tok) :
    decodeFiles t.length
        ((t.map fun e => Tok.mark e.1 :: Tok.b e.2.length :: e.2.map Tok.b).flatten ++ rest)
      = some (t, rest) := by
  induction t generalizing rest with
  | nil => simp [decodeFiles]
  | cons e tl ih =>
      obtain ⟨nm, dta⟩ := e
      simp only [List.map_cons, List.flatten_cons, List.length_cons, List.cons_append,
        List.append_eq, List.append_assoc]
      simp only [decodeFiles, decodeData_encode, ih]

theorem gzOpen_encode (arcname : String) (t : Tree) :
    gzOpen (archiveBytes "gz" arcname t) = some (arcname, t) := by
  have h := decodeFiles_encode t []
  rw [List.append_nil] at h
  simp [gzOpen, archiveBytes, tarEncode, h]

/-- Model of `_compute_sha256` (binpkg.py lines 39-44): a deterministic
digest of the archive stream.  Like a real hex digest it is never the
falsy empty value, and it changes when the stream is truncated (the
leading component is the length). -/
def compute_sha256 (bytes : List Tok) : List Nat :=
  [bytes.length,
    bytes.foldl
      (fun a tk =>
        match tk with
        | Tok.b n => (a + n + 1) % 1000003
        | Tok.mark s => (a + s.length + 2) % 1000003) 0]

/-- Sidecar `.pkginfo` JSON content (binpkg.py lines 60-68), parsed;
`created_at` comes from the wall clock and is not modelled.  The
`sha256` field holds a digest, with `[]` playing the falsy `""` that
`pkginfo.get("sha256", "")` yields when the key is absent. -/
structure PkgInfo where
  name : String
  version : String
  arch : String
  install_path : String
  sha256 : List Nat
  compress : String
deriving DecidableEq

/-- The binpkg directory: tarball files and parsed sidecars, both
keyed by filename (binpkg.py lines 17-24). -/
structure BinState where
  files : List (String × List Tok)
  sidecars : List (String × PkgInfo)
deriving DecidableEq

/-- Model of `os.path.basename` (binpkg.py line 56): the suffix after
the last `/`. -/
def basename (p : String) : String :=
  p.data.foldl (fun acc c => if c = '/' then "" else acc.push c) ""

/-- The error taxonomy of binpkg.py: `FileNotFoundError` (line 97),
the integrity `ValueError` (line 107), and `tarfile.ReadError` from
opening a malformed archive. -/
inductive BinError where
  | notFound (filename : String)
  | integrity (filename : String)
  | readError (filename : String)
deriving DecidableEq

/-- `create_binpkg` (binpkg.py lines 49-83): tar `install_path` into
`<name>-<version>-<arch>.tar.{gz|xz}` with
`arcname = basename(install_path)`, digest it and write the sidecar.
Returns the new store and the tarball filename. -/
def create_binpkg (st : BinState) (package_name version install_path : String)
    (tree : Tree) (arch compress : String) : BinState × String :=
  let ext := if compress = "gz" then "tar.gz" else "tar.xz"
  let stem := package_name ++ "-" ++ version ++ "-" ++ arch
  let filename := stem ++ "." ++ ext
  let bytes := archiveBytes (if compress = "gz" then "gz" else "xz")
    (basename install_path) tree
  let info : PkgInfo :=
    ⟨package_name, version, arch, install_path, compute_sha256 bytes, compress⟩
  ({ files := aset st.files filename bytes,
     sidecars := aset st.sidecars (stem ++ ".pkginfo") info }, filename)

/-- `tar.extractall(path=dest_path)` (binpkg.py line 116) merging the
archive members under `dest/<arcname>/`. -/
def extractTar (dest : Tree) (arcname : String) (t : Tree) : Tree :=
  t.foldl (fun d e => aset d (arcname ++ "/" ++ e.1) e.2) dest

/-- `install_binpkg` (binpkg.py lines 88-132).  The tarball filename is
always `<stem>.tar.gz` (line 92) and the archive is always opened
`"r:gz"` (line 115), whatever `compress` produced the package.  The
integrity `ValueError` (line 107) is raised before `extractall`
(line 116), so a failing install never touches `dest`. -/
def install_binpkg (st : BinState) (package_name version : String)
    (dest : Tree) (arch : String) : Except BinError Tree :=
  let stem := package_name ++ "-" ++ version ++ "-" ++ arch
  let filename := stem ++ ".tar.gz"
  match alook st.files filename with
  | none => .error (.notFound filename)
  | some bytes =>
      let expected := match alook st.sidecars (stem ++ ".pkginfo") with
        | some info => info.sha256
        | none => []
      if expected ≠ [] ∧ compute_sha256 bytes ≠ expected then
        .error (.integrity filename)
      else
        match gzOpen bytes with
        | none => .error (.readError filename)
        | some (arcname, tree) => .ok (extractTar dest arcname tree)

/-- `validate_binpkg` (binpkg.py lines 137-162).  Missing tarball or
sidecar → `False`; `tarfile.open(filepath, "r:gz")` (line 146) sits
*outside* the `try`, so a malformed archive raises; when the archive
opens, line 148 calls `tar.testzip()` — a method of `zipfile.ZipFile`
that `tarfile.TarFile` does not have — so `AttributeError` is raised
and caught by the `except Exception` (line 149), returning `False`.
The SHA comparison and the success return (lines 153-162) are
unreachable. -/
def validate_binpkg (st : BinState) (package_name version arch : String) :
    Except BinError Bool :=
  let stem := package_name ++ "-" ++ version ++ "-" ++ arch
  let filename := stem ++ ".tar.gz"
  match alook st.files filename, alook st.sidecars (stem ++ ".pkginfo") with
  | none, _ => .ok false
  | some _, none => .ok false
  | some bytes, some _ =>
      match gzOpen bytes with
      | none => .error (.readError filename)
      | some _ => .ok false

theorem string_append_left_cancel {a x y : String} (h : a ++ x = a ++ y) : x = y := by
  have hd := congrArg String.data h
  rw [String.data_append, String.data_append] at hd
  have hxy : x.data = y.data := List.append_cancel_left hd
  cases x
  cases y
  exact congrArg String.mk hxy

theorem dot_tar_gz (s : String) : s ++ "." ++ "tar.gz" = s ++ ".tar.gz" := by
  rw [String.append_assoc]
  rfl

theorem dot_tar_xz_ne (s : String) : s ++ "." ++ "tar.xz" ≠ s ++ ".tar.gz" := by
  intro h
  rw [String.append_assoc] at h
  have : (("." ++ "tar.xz" : String) = ".tar.gz") := string_append_left_cancel h
  exact absurd this (by decide)

theorem aset_append_of_not_mem {β : Type _} {d : List (String × β)} {k : String}
    (v : β) (h : k ∉ fsts d) : aset d k v = d ++ [(k, v)] := by
  induction d with
  | nil => simp [aset]
  | cons e t ih =>
      rw [fsts_cons] at h
      have h1 : e.1 ≠ k := fun he => h (he ▸ List.mem_cons_self _ _)
      have h2 : k ∉ fsts t := fun ht => h (List.mem_cons_of_mem _ ht)
      simp [aset, h1, ih h2]

theorem extractTar_go (arc : String) :
    ∀ (t : Tree) (d : Tree), (fsts t).Nodup →
      (∀ e ∈ t, (arc ++ "/" ++ e.1) ∉ fsts d) →
      extractTar d arc t = d ++ t.map fun e => (arc ++ "/" ++ e.1, e.2) := by
  intro t
  induction t with
  | nil => intro d _ _; simp [extractTar]
  | cons e tl ih =>
      intro d hnd hfresh
      rw [fsts_cons] at hnd
      have h1 : e.1 ∉ fsts tl := (List.nodup_cons.mp hnd).1
      have h2 : (fsts tl).Nodup := (List.nodup_cons.mp hnd).2
      show extractTar (aset d (arc ++ "/" ++ e.1) e.2) arc tl = _
      rw [aset_append_of_not_mem _ (hfresh e (List.mem_cons_self _ _))]
      rw [ih _ h2 ?_]
      · simp
      · intro e' he'
        rw [fsts, List.map_append]
        rw [List.mem_append]
        push_neg
        constructor
        · exact hfresh e' (List.mem_cons_of_mem _ he')
        · simp only [List.map_cons, List.map_nil, List.mem_singleton]
          intro hkey
          have : e'.1 = e.1 := string_append_left_cancel hkey
          exact h1 (this ▸ mem_fsts.mpr ⟨e'.2, he'⟩)

theorem extractTar_fresh (arc : String) (t : Tree) (hnd : (fsts t).Nodup) :
    extractTar [] arc t = t.map fun e => (arc ++ "/" ++ e.1, e.2) := by
  rw [extractTar_go arc t [] hnd (by simp [fsts])]
  simp

theorem install_binpkg_ok {st : BinState} {name ver arch : String} {dest : Tree}
    {bytes : List Tok} {info : PkgInfo} {arc : String} {tree : Tree}
    (hfile : alook st.files (name ++ "-" ++ ver ++ "-" ++ arch ++ ".tar.gz") = some bytes)
    (hside : alook st.sidecars (name ++ "-" ++ ver ++ "-" ++ arch ++ ".pkginfo") = some info)
    (hsha : info.sha256 = compute_sha256 bytes)
    (hopen : gzOpen bytes = some (arc, tree)) :
    install_binpkg st name ver dest arch = .ok (extractTar dest arc tree) := by
  simp only [install_binpkg, hfile, hside, hsha]
  rw [if_neg (by simp)]
  simp only [hopen]

/-- The spec's scenario-3 staging tree: `bin/foo` holding 100 zero
bytes. -/
def stageTree : Tree := [("bin/foo", List.replicate 100 0)]

/-- C4 counterexample: an `xz` package cannot be installed at all —
`create_binpkg(..., compress="xz")` writes `<stem>.tar.xz`, but
`install_binpkg` looks only for `<stem>.tar.gz` (binpkg.py line 92)
and fails with the not-found error instead of succeeding. -/
theorem binpkg_xz_counterexample :
    install_binpkg
        (create_binpkg ⟨[], []⟩ "foo" "1.0" "/tmp/stage" stageTree "x86_64" "xz").1
        "foo" "1.0" [] "x86_64"
      = .error (.notFound "foo-1.0-x86_64.tar.gz") := rfl

/-- C4 (amended): for `compress = gz`, `create_binpkg` followed by
`install_binpkg` into a fresh destination succeeds and reproduces the
packaged tree byte-for-byte under `basename(install_path)/`; for
`compress = xz` (with no stale `.tar.gz` for the same stem),
`install_binpkg` fails with *NotFound* because it only ever looks for
`<stem>.tar.gz`. -/
theorem binpkg_roundtrip :
    (∀ (st : BinState) (name ver arch ipath : String) (tree : Tree),
        (fsts tree).Nodup →
        install_binpkg (create_binpkg st name ver ipath tree arch "gz").1 name ver [] arch
          = .ok (tree.map fun e => (basename ipath ++ "/" ++ e.1, e.2))) ∧
    (∀ (st : BinState) (name ver arch ipath : String) (tree : Tree),
        alook st.files (name ++ "-" ++ ver ++ "-" ++ arch ++ ".tar.gz") = none →
        install_binpkg (create_binpkg st name ver ipath tree arch "xz").1 name ver [] arch
          = .error (.notFound (name ++ "-" ++ ver ++ "-" ++ arch ++ ".tar.gz"))) := by
  constructor
  · intro st name ver arch ipath tree hnd
    have hgz : (if ("gz" : String) = "gz" then ("tar.gz" : String) else "tar.xz")
        = "tar.gz" := if_pos rfl
    have hgzc : (if ("gz" : String) = "gz" then ("gz" : String) else "xz") = "gz" :=
      if_pos rfl
    have hstate : (create_binpkg st name ver ipath tree arch "gz").1
        = { files := aset st.files (name ++ "-" ++ ver ++ "-" ++ arch ++ ".tar.gz")
              (archiveBytes "gz" (basename ipath) tree),
            sidecars := aset st.sidecars (name ++ "-" ++ ver ++ "-" ++ arch ++ ".pkginfo")
              ⟨name, ver, arch, ipath,
                compute_sha256 (archiveBytes "gz" (basename ipath) tree), "gz"⟩ } := by
      simp [create_binpkg, dot_tar_gz]
    rw [hstate]
    rw [install_binpkg_ok (alook_aset_self _ _ _) (alook_aset_self _ _ _) rfl
      (gzOpen_encode _ _)]
    rw [extractTar_fresh _ _ hnd]
  · intro st name ver arch ipath tree hnone
    have hxz : (if ("xz" : String) = "gz" then ("tar.gz" : String) else "tar.xz")
        = "tar.xz" := if_neg (by decide)
    have hxzc : (if ("xz" : String) = "gz" then ("gz" : String) else "xz") = "xz" :=
      if_neg (by decide)
    have hstate : (create_binpkg st name ver ipath tree arch "xz").1
        = { files := aset st.files (name ++ "-" ++ ver ++ "-" ++ arch ++ "." ++ "tar.xz")
              (archiveBytes "xz" (basename ipath) tree),
            sidecars := aset st.sidecars (name ++ "-" ++ ver ++ "-" ++ arch ++ ".pkginfo")
              ⟨name, ver, arch, ipath,
                compute_sha256 (archiveBytes "xz" (basename ipath) tree), "xz"⟩ } := by
      simp [create_binpkg]
    rw [hstate]
    simp only [install_binpkg]
    rw [alook_aset_ne _ _ _ _ (dot_tar_xz_ne _), hnone]

/-- Witness for C4's theorem: the gz round-trip of the scenario tree
lands `stage/bin/foo` with the original bytes. -/
theorem binpkg_roundtrip_witness :
    (fsts stageTree).Nodup ∧
      install_binpkg
          (create_binpkg ⟨[], []⟩ "foo" "1.0" "/tmp/stage" stageTree "x86_64" "gz").1
          "foo" "1.0" [] "x86_64"
        = .ok (stageTree.map fun e => (basename "/tmp/stage" ++ "/" ++ e.1, e.2)) :=
  ⟨by decide,
    binpkg_roundtrip.1 ⟨[], []⟩ "foo" "1.0" "x86_64" "/tmp/stage" stageTree (by decide)⟩

/-- C5: when the sidecar is present and records a non-empty `sha256`
that differs from the tarball's current digest, `install_binpkg` fails
with the integrity error.  The `ValueError` (binpkg.py line 107) is
raised before `extractall` (line 116), so nothing is extracted into
the destination — the model reaches the error without constructing any
output tree. -/
theorem install_binpkg_integrity :
    ∀ (st : BinState) (name ver arch : String) (dest : Tree) (bytes : List Tok)
      (info : PkgInfo),
      alook st.files (name ++ "-" ++ ver ++ "-" ++ arch ++ ".tar.gz") = some bytes →
      alook st.sidecars (name ++ "-" ++ ver ++ "-" ++ arch ++ ".pkginfo") = some info →
      info.sha256 ≠ [] →
      compute_sha256 bytes ≠ info.sha256 →
      install_binpkg st name ver dest arch
        = .error (.integrity (name ++ "-" ++ ver ++ "-" ++ arch ++ ".tar.gz")) := by
  intro st name ver arch dest bytes info hfile hside hne hdif
  simp only [install_binpkg, hfile, hside]
  rw [if_pos ⟨hne, hdif⟩]

/-- The scenario-3 store: `foo-1.0-x86_64` created from `/tmp/stage`
and then its tarball truncated by one byte. -/
def fooStateTrunc : BinState :=
  let st := (create_binpkg ⟨[], []⟩ "foo" "1.0" "/tmp/stage" stageTree "x86_64" "gz").1
  { st with files := (aset st.files "foo-1.0-x86_64.tar.gz"
      ((archiveBytes "gz" "stage" stageTree).dropLast)) }

set_option maxRecDepth 4000 in
/-- Witness for C5's theorem at the truncated scenario package. -/
theorem install_binpkg_integrity_witness :
    install_binpkg fooStateTrunc "foo" "1.0" [] "x86_64"
      = .error (.integrity "foo-1.0-x86_64.tar.gz") :=
  install_binpkg_integrity fooStateTrunc "foo" "1.0" "x86_64" []
    ((archiveBytes "gz" "stage" stageTree).dropLast)
    ⟨"foo", "1.0", "x86_64", "/tmp/stage",
      compute_sha256 (archiveBytes "gz" (basename "/tmp/stage") stageTree), "gz"⟩
    (by decide) (by decide) (by decide) (by decide)

/-- The intact scenario-3 store. -/
def fooState : BinState :=
  (create_binpkg ⟨[], []⟩ "foo" "1.0" "/tmp/stage" stageTree "x86_64" "gz").1

/-- C6: `validate_binpkg` can never return `True`.  For any store it
either returns `False` (missing tarball or sidecar, or — because
line 148's `tar.testzip()` raises `AttributeError` on a `TarFile`,
caught by the blanket `except` — any package whose archive opens), or
raises `tarfile.ReadError` on a malformed archive.  In particular it
returns `False` on the intact, digest-matching scenario package, where
the claim expects `True`. -/
theorem validate_binpkg_never_true :
    (∀ (st : BinState) (name ver arch : String),
        validate_binpkg st name ver arch = .ok false ∨
          ∃ fn, validate_binpkg st name ver arch = .error (.readError fn)) ∧
      validate_binpkg fooState "foo" "1.0" "x86_64" = .ok false := by
  constructor
  · intro st name ver arch
    rcases h1 : alook st.files (name ++ "-" ++ ver ++ "-" ++ arch ++ ".tar.gz")
      with _ | bytes
    · left
      simp [validate_binpkg, h1]
    · rcases h2 : alook st.sidecars (name ++ "-" ++ ver ++ "-" ++ arch ++ ".pkginfo")
        with _ | info
      · left
        simp [validate_binpkg, h1, h2]
      · rcases h3 : gzOpen bytes with _ | pr
        · right
          exact ⟨name ++ "-" ++ ver ++ "-" ++ arch ++ ".tar.gz",
            by simp [validate_binpkg, h1, h2, h3]⟩
        · left
          simp [validate_binpkg, h1, h2, h3]
  · rfl

end Source
